import Mathlib

/-!
Verification development for the sjcl Poly1305 implementation
(`src/core/poly1305.js`).

Modelling conventions (shallow embedding):

* An sjcl `bitArray` is an array of 32-bit words whose byte order inside
  each word is big-endian.  Keys (always exactly full 32-bit words) are
  modelled as `List Nat` of words, each `< 2 ^ 32`.  Message data, which
  the code consumes byte-aligned, is modelled as a `List Nat` of bytes
  (each `< 256`); `sjcl.bitArray.concat` on byte-aligned arrays is list
  append, `slice` is `take`/`drop`.
* The big-number engine (`sjcl.bn`, `sjcl.bn.prime.p1305`) is an external
  collaborator whose contract the spec fixes: field arithmetic modulo
  `2 ^ 130 - 5`, a plain integer type, and little-endian conversions.  Its
  values are modelled as `Nat`; the lazy limb representation is modelled
  by its value, `fullReduce` by `% poly1305P`, so `addM`/`cnormalize`
  followed by `mul` on the `p1305` class is `fun h c => ((h + c) * r) %
  poly1305P` (`polyStep`).
* JavaScript in-place mutation is modelled by state passing: functions
  that mutate an argument or `this` return the new value of every array
  or context they may write (`mkPoly1305S`, `finalizeS`, `verifyS`,
  `mkPoly1305aesS`).  `throw sjcl.exception.invalid` is `Except.error`
  with the thrown message.
* The AES block cipher used by `poly1305aes` is out of scope for the
  source directory; it is passed in as an explicit function parameter.
-/

namespace SjclPoly1305

/-- The Poly1305 prime `p = 2 ^ 130 - 5` (`sjcl.bn.prime.p1305`). -/
def poly1305P : Nat := 2 ^ 130 - 5

/-- One step of the source `byteswap` loop (`core/poly1305.js:27`):
`(v >>> 24) | ((v >>> 8) & 0xff00) | ((v & 0xff00) << 8) | ((v & 0xff) << 24)`
on a 32-bit word. -/
def byteswapWord (v : Nat) : Nat :=
  (v >>> 24) ||| ((v >>> 8) &&& 0xff00) ||| ((v &&& 0xff00) <<< 8) ||| ((v &&& 0xff) <<< 24)

/-- The source `byteswap` applied to a word array (in place in JS,
value-passing here). -/
def byteswap (ws : List Nat) : List Nat := ws.map byteswapWord

/-- Value of a big-endian word sequence (`sjcl.bn.fromBits` semantics at
the value level: the first word is the most significant). -/
def fromBitsBE (ws : List Nat) : Nat := ws.foldl (fun acc w => acc * 2 ^ 32 + w) 0

/-- The source `bits128ToNum(a, offset, cls)` (`core/poly1305.js:38`) with
the slice already taken: `cls.fromBits(byteswap(a.slice(offset, offset +
4)).reverse())`, i.e. the little-endian value of (up to) 16 bytes. -/
def bits128ToNum (ws : List Nat) : Nat := fromBitsBE ((byteswap (ws.take 4)).reverse)

/-- Little-endian value of a byte sequence; this is what `bits128ToNum`
computes on the byte view of a byte-aligned data block. -/
def leNum (bs : List Nat) : Nat := bs.foldr (fun b acc => b + 256 * acc) 0

/-- The clamp of the constructor (`core/poly1305.js:58-61`):
`key[0] &= ~0xf0; key[1] &= ~0x30000f0; key[2] &= ~0x30000f0;
key[3] &= ~0x30000f0` on the first four 32-bit words, in place.
`~0xf0` and `~0x30000f0` as unsigned 32-bit masks are `0xffffff0f` and
`0xfcffff0f`. -/
def clampKey (key : List Nat) : List Nat :=
  match key with
  | k0 :: k1 :: k2 :: k3 :: rest =>
      (k0 &&& 0xffffff0f) :: (k1 &&& 0xfcffff0f) :: (k2 &&& 0xfcffff0f) ::
        (k3 &&& 0xfcffff0f) :: rest
  | l => l

/-- The context of a Poly1305 operation in progress: the fields `_r`,
`_s`, `_h`, `_buffer` of the JS object (`_buffer = null` is the empty
list; the buffer holds the pending 0-15 message bytes). -/
structure Poly1305 where
  r : Nat
  s : Nat
  h : Nat
  buffer : List Nat
deriving DecidableEq

/-- The constructor (`core/poly1305.js:51-66`), with the post-call state
of the caller-supplied key array as second component (the clamp writes
through to the argument).  Throws `invalid Poly1305 key size` unless the
key is exactly 8 words (256 bits). -/
def mkPoly1305S (key : List Nat) : Except String (Poly1305 × List Nat) :=
  if key.length ≠ 8 then .error "invalid Poly1305 key size"
  else
    let key' := clampKey key
    .ok ({ r := bits128ToNum (key'.take 4), s := bits128ToNum (key'.drop 4),
           h := 0, buffer := [] }, key')

/-- The constructor, context result only. -/
def mkPoly1305 (key : List Nat) : Except String Poly1305 :=
  (mkPoly1305S key).map Prod.fst

/-- The per-block accumulator step (`core/poly1305.js:84-85`):
`h.addM(ci).cnormalize(); h = h.mul(r)`, at the value level
`h := ((h + c) * r) mod p`. -/
def polyStep (r h c : Nat) : Nat := ((h + c) * r) % poly1305P

/-- The block loop of `update` (`core/poly1305.js:80-89`): consume
16-byte blocks from the front, each interpreted little-endian with
`2 ^ 128` added (`ci.limbs[bit129ndx] += bit129value`), and return the
final accumulator together with the remaining (shorter) bytes. -/
def processBlocks (r h : Nat) (bs : List Nat) : Nat × List Nat :=
  if hlen : 16 ≤ bs.length then
    processBlocks r (polyStep r h (leNum (bs.take 16) + 2 ^ 128)) (bs.drop 16)
  else
    (h, bs)
termination_by bs.length
decreasing_by simp only [List.length_drop]; omega

/-- `poly1305.prototype.update` (`core/poly1305.js:73-93`): prepend the
pending buffer, process full 16-byte blocks, keep the remainder. -/
def update (ctx : Poly1305) (data : List Nat) : Poly1305 :=
  let res := processBlocks ctx.r ctx.h (ctx.buffer ++ data)
  { ctx with h := res.1, buffer := res.2 }

/-- Repeated `update` calls over a list of chunks. -/
def updateChunks (ctx : Poly1305) (chunks : List (List Nat)) : Poly1305 :=
  chunks.foldl update ctx

/-- The buffer drain at the start of `finalize` (`core/poly1305.js:101-109`),
on a copy of the accumulator: if the pending buffer is non-empty, its
little-endian value with `2 ^ (8 * length)` added (`ci.limbs[ndx] +=
1 << (l % radix)` at limb `Math.floor(l / radix)`) is folded in by the
same `addM`/`cnormalize`/`mul` step as a full block; otherwise the
accumulator passes through unchanged. -/
def foldPending (ctx : Poly1305) : Nat :=
  if ctx.buffer = [] then ctx.h
  else polyStep ctx.r ctx.h (leNum ctx.buffer + 2 ^ (8 * ctx.buffer.length))

/-- `bn.toBits(128)`: the low 128 bits of a number as a big-endian
4-word bitArray. -/
def toBits128 (v : Nat) : List Nat :=
  [v / 2 ^ 96 % 2 ^ 32, v / 2 ^ 64 % 2 ^ 32, v / 2 ^ 32 % 2 ^ 32, v % 2 ^ 32]

/-- The tail of `finalize` (`core/poly1305.js:112`):
`byteswap(h.toBits(128)).reverse()`, the little-endian 16-byte
serialization of the low 128 bits of `v`. -/
def serializeTag (v : Nat) : List Nat := (byteswap (toBits128 v)).reverse

/-- `poly1305.prototype.finalize` (`core/poly1305.js:99-113`) with the
post-call context state: it works on a copy of `_h` (`this._h.copy()`),
reads but never writes `_h` and `_buffer`, so the context comes back
unchanged.  The tag value is `fullReduce` of the drained accumulator
(`h = new bn(h.fullReduce())`), plus `s` (`h.addM(s)`), truncated to 128
bits by `toBits(128)`. -/
def finalizeS (ctx : Poly1305) : List Nat × Poly1305 :=
  (serializeTag (foldPending ctx % poly1305P + ctx.s), ctx)

/-- The finalize tag alone. -/
def finalize (ctx : Poly1305) : List Nat := (finalizeS ctx).1

/-- Modelled from the spec: the bit length of a full-word bitArray
(`sjcl.bitArray.bitLength`; tags and tag candidates are full words). -/
def bitLengthWords (a : List Nat) : Nat := 32 * a.length

/-- Modelled from the spec: the constant-time comparison used by
`verify` (`sjcl.bitArray.equal`, not part of the covered source).  Per
the spec it is an equality check whose execution profile is fixed by the
computed 16-byte tag: the result is `lengths match AND all words match`,
the word scan accumulating differences with bitwise or over xor. -/
def ctEqual (a b : List Nat) : Bool :=
  decide (bitLengthWords a = bitLengthWords b) &&
    ((List.range a.length).foldl (fun x i => x ||| (a.getD i 0 ^^^ b.getD i 0)) 0 == 0)

/-- Modelled from the spec: the comparison cost of `ctEqual` in
fixed-size word operations: the scan is driven by the computed tag `a`
alone, so it always touches `a.length` words. -/
def ctEqualSteps (a _b : List Nat) : Nat := a.length

/-- `poly1305.prototype.verify` (`core/poly1305.js:120-123`) with the
post-call context state: `bA.equal(this.finalize(), tag)`. -/
def verifyS (ctx : Poly1305) (tag : List Nat) : Bool × Poly1305 :=
  (ctEqual (finalizeS ctx).1 tag, (finalizeS ctx).2)

/-- The verification result alone. -/
def verify (ctx : Poly1305) (tag : List Nat) : Bool := (verifyS ctx tag).1

/-- The comparison cost of a `verify` call against a candidate tag. -/
def verifySteps (ctx : Poly1305) (tag : List Nat) : Nat :=
  ctEqualSteps (finalize ctx) tag

/-- `sjcl.misc.poly1305aes` (`core/poly1305.js:140-152`), the AES cipher
passed explicitly.  Throws `invalid Poly1305-AES key/nonce size` unless
the cipher key and the nonce are 4 words (128 bits) each; otherwise
derives `s = AES_key(nonce)` and builds a poly1305 context from the
freshly concatenated array `r.concat(s)`.  The result carries the
post-call states of the three caller-supplied arrays `r`, `key`,
`nonce`: the clamp inside the constructor hits the fresh concatenation,
never the caller arrays. -/
def mkPoly1305aesS (aesEnc : List Nat → List Nat → List Nat)
    (r key nonce : List Nat) :
    Except String (Poly1305 × (List Nat × List Nat × List Nat)) :=
  if key.length ≠ 4 ∨ nonce.length ≠ 4 then
    .error "invalid Poly1305-AES key/nonce size"
  else
    let s := aesEnc key nonce
    (mkPoly1305S (r ++ s)).map (fun res => (res.1, (r, key, nonce)))

/-- The one-shot calling convention (`core/poly1305.js:52-54`):
`poly1305(key, data)` without `new` is
`(new poly1305(key)).update(data).finalize()`; the second component is
the post-call state of the caller-supplied key array. -/
def poly1305OneShotS (key data : List Nat) : Except String (List Nat × List Nat) :=
  (mkPoly1305S key).map (fun res => ((finalizeS (update res.1 data)).1, res.2))

/-- Big-endian byte view of one 32-bit bitArray word
(`sjcl.codec.bytes.fromBits` semantics per word). -/
def bytesOfWord (w : Nat) : List Nat :=
  [w / 2 ^ 24 % 256, w / 2 ^ 16 % 256, w / 2 ^ 8 % 256, w % 256]

/-- Byte stream of a full-word bitArray. -/
def wordsToBytes (ws : List Nat) : List Nat := ws.flatMap bytesOfWord

/-- Little-endian serialization of `v` to `n` bytes. -/
def leBytes : Nat → Nat → List Nat
  | 0, _ => []
  | n + 1, v => v % 256 :: leBytes n (v / 256)

/-! ### Bitwise helper lemmas -/

theorem and_div_pow (x y n : Nat) : (x &&& y) / 2 ^ n = x / 2 ^ n &&& y / 2 ^ n := by
  simp only [← Nat.shiftRight_eq_div_pow]
  apply Nat.eq_of_testBit_eq
  intro i
  simp [Nat.testBit_shiftRight, Nat.testBit_and]

theorem and_mod_pow (x y n : Nat) : (x &&& y) % 2 ^ n = x % 2 ^ n &&& y % 2 ^ n := by
  apply Nat.eq_of_testBit_eq
  intro i
  simp only [Nat.testBit_mod_two_pow, Nat.testBit_and]
  by_cases h : i < n <;> simp [h]

theorem and_shiftLeft_mask (x m k : Nat) :
    x &&& (m <<< k) = ((x >>> k) &&& m) <<< k := by
  apply Nat.eq_of_testBit_eq
  intro i
  simp only [Nat.testBit_and, Nat.testBit_shiftLeft, Nat.testBit_shiftRight]
  by_cases h : k ≤ i
  · simp only [ge_iff_le, h, decide_True, Bool.true_and, Nat.add_sub_cancel' h]
  · simp [h]

theorem and_ff (x : Nat) : x &&& 0xff = x % 2 ^ 8 := by
  rw [show (0xff : Nat) = 2 ^ 8 - 1 from rfl, Nat.and_pow_two_sub_one_eq_mod]

theorem and_ff00 (x : Nat) : x &&& 0xff00 = x / 2 ^ 8 % 2 ^ 8 * 2 ^ 8 := by
  rw [show (0xff00 : Nat) = (2 ^ 8 - 1) <<< 8 from rfl, and_shiftLeft_mask,
    Nat.and_pow_two_sub_one_eq_mod, Nat.shiftLeft_eq, Nat.shiftRight_eq_div_pow]

theorem or_eq_add_of_lt {u : Nat} (n t : Nat) (hu : u < 2 ^ n) :
    u ||| t * 2 ^ n = t * 2 ^ n + u := by
  rw [Nat.or_comm, Nat.mul_comm t]
  exact (Nat.mul_add_lt_is_or hu t).symm

/-- Arithmetic characterization of the JS `byteswap` body on a 32-bit
word: it reverses the four bytes. -/
theorem byteswapWord_eq (v : Nat) (hv : v < 2 ^ 32) :
    byteswapWord v =
      v % 2 ^ 8 * 2 ^ 24 + v / 2 ^ 8 % 2 ^ 8 * 2 ^ 16 + v / 2 ^ 16 % 2 ^ 8 * 2 ^ 8 +
        v / 2 ^ 24 := by
  have hA : v >>> 24 = v / 2 ^ 24 := Nat.shiftRight_eq_div_pow v 24
  have hB : (v >>> 8) &&& 0xff00 = v / 2 ^ 16 % 2 ^ 8 * 2 ^ 8 := by
    rw [Nat.shiftRight_eq_div_pow, and_ff00, Nat.div_div_eq_div_mul]
    norm_num
  have hC : (v &&& 0xff00) <<< 8 = v / 2 ^ 8 % 2 ^ 8 * 2 ^ 16 := by
    rw [and_ff00, Nat.shiftLeft_eq, Nat.mul_assoc]
    norm_num
  have hD : (v &&& 0xff) <<< 24 = v % 2 ^ 8 * 2 ^ 24 := by
    rw [and_ff, Nat.shiftLeft_eq]
  unfold byteswapWord
  rw [hA, hB, hC, hD]
  rw [or_eq_add_of_lt 8 _ (by omega)]
  rw [or_eq_add_of_lt 16 _ (by omega)]
  rw [or_eq_add_of_lt 24 _ (by omega)]
  omega

theorem byteswapWord_lt (v : Nat) (hv : v < 2 ^ 32) : byteswapWord v < 2 ^ 32 := by
  rw [byteswapWord_eq v hv]
  omega

/-- Big-endian byte extraction from a number given by its four byte
digits. -/
theorem bytesOfWord_of_digits (p3 p2 p1 p0 : Nat) (h3 : p3 < 256) (h2 : p2 < 256)
    (h1 : p1 < 256) (h0 : p0 < 256) :
    bytesOfWord (p3 * 2 ^ 24 + p2 * 2 ^ 16 + p1 * 2 ^ 8 + p0) = [p3, p2, p1, p0] := by
  simp only [bytesOfWord, List.cons.injEq, and_true]
  refine ⟨by omega, by omega, by omega, by omega⟩

/-- The byte view of a byteswapped word is the reversed byte view. -/
theorem bytesOfWord_byteswap (w : Nat) (hw : w < 2 ^ 32) :
    bytesOfWord (byteswapWord w) = [w % 256, w / 2 ^ 8 % 256, w / 2 ^ 16 % 256, w / 2 ^ 24] := by
  rw [byteswapWord_eq w hw,
    bytesOfWord_of_digits _ _ _ _ (by omega) (by omega) (by omega) (by omega)]
  norm_num

/-! ### Block-loop lemmas -/

theorem processBlocks_of_lt (r h : Nat) (bs : List Nat) (hl : bs.length < 16) :
    processBlocks r h bs = (h, bs) := by
  rw [processBlocks, dif_neg (by omega)]

theorem processBlocks_of_le (r h : Nat) (bs : List Nat) (hl : 16 ≤ bs.length) :
    processBlocks r h bs =
      processBlocks r (polyStep r h (leNum (bs.take 16) + 2 ^ 128)) (bs.drop 16) := by
  conv_lhs => rw [processBlocks]
  rw [dif_pos hl]

theorem processBlocks_snd_lt_aux (r : Nat) :
    ∀ (n h : Nat) (bs : List Nat), bs.length ≤ n → (processBlocks r h bs).2.length < 16 := by
  intro n
  induction n with
  | zero =>
    intro h bs hb
    rw [processBlocks_of_lt r h bs (by omega)]
    exact show bs.length < 16 by omega
  | succ n ih =>
    intro h bs hb
    by_cases h16 : 16 ≤ bs.length
    · rw [processBlocks_of_le r h bs h16]
      exact ih _ _ (by simp only [List.length_drop]; omega)
    · rw [processBlocks_of_lt r h bs (by omega)]
      exact show bs.length < 16 by omega

/-- The remainder the block loop leaves behind is always shorter than a
block. -/
theorem processBlocks_snd_lt (r h : Nat) (bs : List Nat) :
    (processBlocks r h bs).2.length < 16 :=
  processBlocks_snd_lt_aux r bs.length h bs le_rfl

theorem processBlocks_append_aux (r : Nat) :
    ∀ (n h : Nat) (xs ys : List Nat), xs.length ≤ n →
      processBlocks r h (xs ++ ys) =
        processBlocks r (processBlocks r h xs).1 ((processBlocks r h xs).2 ++ ys) := by
  intro n
  induction n with
  | zero =>
    intro h xs ys hx
    have hnil : xs = [] := List.eq_nil_of_length_eq_zero (by omega)
    subst hnil
    rw [processBlocks_of_lt r h [] (by simp)]
  | succ n ih =>
    intro h xs ys hx
    by_cases h16 : 16 ≤ xs.length
    · have hxy : 16 ≤ (xs ++ ys).length := by
        simp only [List.length_append]; omega
      rw [processBlocks_of_le r h _ hxy, processBlocks_of_le r h xs h16,
        List.take_append_of_le_length h16, List.drop_append_of_le_length h16]
      exact ih _ _ _ (by simp only [List.length_drop]; omega)
    · rw [processBlocks_of_lt r h xs (by omega)]

/-- The block loop consumes a prefix independently of what follows. -/
theorem processBlocks_append (r h : Nat) (xs ys : List Nat) :
    processBlocks r h (xs ++ ys) =
      processBlocks r (processBlocks r h xs).1 ((processBlocks r h xs).2 ++ ys) :=
  processBlocks_append_aux r xs.length h xs ys le_rfl

/-- Two consecutive `update` calls are one `update` call on the
concatenation. -/
theorem update_append (ctx : Poly1305) (a b : List Nat) :
    update (update ctx a) b = update ctx (a ++ b) := by
  cases ctx with
  | mk r s h buf =>
    simp only [update]
    rw [← List.append_assoc, processBlocks_append r h (buf ++ a) b]

/-- An `update` with no data leaves a well-formed context unchanged. -/
theorem update_nil (ctx : Poly1305) (hbuf : ctx.buffer.length < 16) :
    update ctx [] = ctx := by
  cases ctx with
  | mk r s h buf =>
    simp only [update, List.append_nil]
    rw [processBlocks_of_lt r h buf hbuf]

/-! ### Serialization lemmas -/

theorem leBytes_append (m n x : Nat) :
    leBytes (m + n) x = leBytes m x ++ leBytes n (x / 256 ^ m) := by
  induction m generalizing x with
  | zero => simp [leBytes]
  | succ m ih =>
    rw [Nat.succ_add]
    simp only [leBytes, List.cons_append, ih (x / 256)]
    rw [Nat.div_div_eq_div_mul,
      show 256 * 256 ^ m = 256 ^ (m + 1) from by rw [Nat.pow_succ, Nat.mul_comm]]

theorem leBytes_mod (n x : Nat) : leBytes n (x % 256 ^ n) = leBytes n x := by
  induction n generalizing x with
  | zero => rfl
  | succ n ih =>
    simp only [leBytes, List.cons.injEq]
    constructor
    · exact Nat.mod_mod_of_dvd x ⟨256 ^ n, by rw [Nat.pow_succ, Nat.mul_comm]⟩
    · rw [show (256 : Nat) ^ (n + 1) = 256 * 256 ^ n from by rw [Nat.pow_succ, Nat.mul_comm],
        Nat.mod_mul_right_div_self]
      exact ih (x / 256)

theorem leBytes4_word (y : Nat) :
    leBytes 4 y = [y % 256, y / 2 ^ 8 % 256, y / 2 ^ 16 % 256, y / 2 ^ 24 % 256] := by
  simp only [leBytes, Nat.div_div_eq_div_mul]
  norm_num

/-- The byte view of the byteswap of the low word of `y` is the four
low little-endian bytes of `y`. -/
theorem word_bytes (y : Nat) : bytesOfWord (byteswapWord (y % 2 ^ 32)) = leBytes 4 y := by
  rw [bytesOfWord_byteswap _ (Nat.mod_lt _ (by norm_num)), leBytes4_word]
  have h1 : y % 2 ^ 32 % 256 = y % 256 := Nat.mod_mod_of_dvd y (by norm_num)
  have h2 : y % 2 ^ 32 / 2 ^ 8 % 256 = y / 2 ^ 8 % 256 := by
    rw [show (2 : Nat) ^ 32 = 2 ^ 8 * 2 ^ 24 from by norm_num, Nat.mod_mul_right_div_self]
    exact Nat.mod_mod_of_dvd _ (by norm_num)
  have h3 : y % 2 ^ 32 / 2 ^ 16 % 256 = y / 2 ^ 16 % 256 := by
    rw [show (2 : Nat) ^ 32 = 2 ^ 16 * 2 ^ 16 from by norm_num, Nat.mod_mul_right_div_self]
    exact Nat.mod_mod_of_dvd _ (by norm_num)
  have h4 : y % 2 ^ 32 / 2 ^ 24 = y / 2 ^ 24 % 256 := by
    rw [show (2 : Nat) ^ 32 = 2 ^ 24 * 2 ^ 8 from by norm_num, Nat.mod_mul_right_div_self]
    norm_num
  rw [h1, h2, h3, h4]

/-- The little-endian byte stream of the tag bitArray of `v` is the
16-byte little-endian serialization of `v mod 2 ^ 128`. -/
theorem wordsToBytes_serializeTag (v : Nat) :
    wordsToBytes (serializeTag v) = leBytes 16 v := by
  simp only [serializeTag, toBits128, byteswap, List.map_cons, List.map_nil,
    List.reverse_cons, List.reverse_nil, List.nil_append, List.cons_append,
    wordsToBytes, List.flatMap_cons, List.flatMap_nil, List.append_nil]
  rw [word_bytes v, word_bytes (v / 2 ^ 32), word_bytes (v / 2 ^ 64), word_bytes (v / 2 ^ 96)]
  have : (16 : Nat) = 4 + (4 + (4 + 4)) := by norm_num
  rw [this, leBytes_append, leBytes_append, leBytes_append]
  norm_num [Nat.div_div_eq_div_mul]

theorem serializeTag_length (v : Nat) : (serializeTag v).length = 4 := by
  simp [serializeTag, toBits128, byteswap]

theorem leBytes_length (n : Nat) : ∀ x : Nat, (leBytes n x).length = n := by
  induction n with
  | zero => intro x; rfl
  | succ n ih => intro x; simp [leBytes, ih]

/-! ### Comparison lemmas -/

theorem or_eq_zero_iff (a b : Nat) : a ||| b = 0 ↔ a = 0 ∧ b = 0 := by
  constructor
  · intro h
    have hb : ∀ i, a.testBit i = false ∧ b.testBit i = false := by
      intro i
      have := congrArg (fun x => Nat.testBit x i) h
      simpa [Nat.testBit_or] using this
    exact ⟨Nat.eq_of_testBit_eq fun i => by simp [(hb i).1],
      Nat.eq_of_testBit_eq fun i => by simp [(hb i).2]⟩
  · rintro ⟨rfl, rfl⟩
    simp

theorem xor_eq_zero_iff (a b : Nat) : a ^^^ b = 0 ↔ a = b := by
  constructor
  · intro h
    have := congrArg (· ^^^ b) h
    simpa [Nat.xor_assoc] using this
  · rintro rfl
    exact Nat.xor_self a

theorem foldl_or_eq_zero (g : Nat → Nat) :
    ∀ (l : List Nat) (acc : Nat),
      l.foldl (fun x i => x ||| g i) acc = 0 ↔ acc = 0 ∧ ∀ i ∈ l, g i = 0 := by
  intro l
  induction l with
  | nil => simp
  | cons z t ih =>
    intro acc
    rw [List.foldl_cons, ih (acc ||| g z)]
    rw [or_eq_zero_iff, List.forall_mem_cons]
    tauto

/-- The spec-modelled constant-time comparison decides equality. -/
theorem ctEqual_eq_true_iff (a b : List Nat) : ctEqual a b = true ↔ a = b := by
  unfold ctEqual bitLengthWords
  rw [Bool.and_eq_true, decide_eq_true_eq, beq_iff_eq, foldl_or_eq_zero]
  constructor
  · rintro ⟨hlen, -, hall⟩
    have hlen : a.length = b.length := by omega
    refine List.ext_getElem hlen fun i h1 h2 => ?_
    have hz := hall i (List.mem_range.2 h1)
    rw [xor_eq_zero_iff] at hz
    rwa [List.getD_eq_getElem?_getD, List.getD_eq_getElem?_getD,
      List.getElem?_eq_getElem h1, List.getElem?_eq_getElem h2] at hz
  · rintro rfl
    exact ⟨rfl, rfl, fun i _ => Nat.xor_self _⟩

/-! ### Context-level lemmas -/

theorem update_buffer_lt (ctx : Poly1305) (data : List Nat) :
    (update ctx data).buffer.length < 16 := by
  simp only [update]
  exact processBlocks_snd_lt ctx.r ctx.h (ctx.buffer ++ data)

theorem updateChunks_eq (chunks : List (List Nat)) :
    ∀ ctx : Poly1305, ctx.buffer.length < 16 →
      updateChunks ctx chunks = update ctx chunks.flatten := by
  induction chunks with
  | nil =>
    intro ctx hbuf
    simpa [updateChunks] using (update_nil ctx hbuf).symm
  | cons c cs ih =>
    intro ctx hbuf
    show updateChunks (update ctx c) cs = _
    rw [ih (update ctx c) (update_buffer_lt ctx c), update_append, List.flatten_cons]

/-! ### Claim theorems -/

/-- C1: for every context with a well-formed pending buffer and every way
of partitioning a message into consecutive byte-aligned chunks, feeding
the chunks via repeated `update` calls yields a context state, and hence
a subsequent `finalize` tag, identical to feeding the concatenated
message in a single `update` call. -/
theorem update_chunk_invariance (ctx : Poly1305) (chunks : List (List Nat))
    (hbuf : ctx.buffer.length < 16) :
    updateChunks ctx chunks = update ctx chunks.flatten ∧
      finalize (updateChunks ctx chunks) = finalize (update ctx chunks.flatten) := by
  have main := updateChunks_eq chunks ctx hbuf
  exact ⟨main, by rw [main]⟩

/-- Witness for C1 at a concrete context and chunk list. -/
theorem update_chunk_invariance_witness :
    updateChunks ⟨77, 5, 3, []⟩ [[1], [2, 3], []] = update ⟨77, 5, 3, []⟩ [1, 2, 3] :=
  (update_chunk_invariance ⟨77, 5, 3, []⟩ [[1], [2, 3], []] (by decide)).1

/-- C2: a full 16-byte block at the head of the fed data is consumed by
interpreting it as a little-endian 128-bit integer, adding `2 ^ 128` as
the pad bit, and updating the accumulator as
`h := ((h + c) mod p) * r mod p` — addition strictly before
multiplication. -/
theorem update_full_block (ctx : Poly1305) (block rest : List Nat)
    (hbuf : ctx.buffer = []) (hlen : block.length = 16) :
    update ctx (block ++ rest) =
      update { ctx with
        h := (ctx.h + (leNum block + 2 ^ 128)) % poly1305P * ctx.r % poly1305P } rest := by
  obtain ⟨r, s, h, buf⟩ := ctx
  dsimp only at hbuf ⊢
  subst hbuf
  simp only [update, List.nil_append]
  rw [processBlocks_of_le r h (block ++ rest) (by simp only [List.length_append]; omega),
    List.take_append_of_le_length (by omega), List.drop_append_of_le_length (by omega),
    List.take_of_length_le (by omega), List.drop_of_length_le (by omega)]
  unfold polyStep
  rw [Nat.mod_mul_mod]
  simp only [List.nil_append]

/-- Witness for C2 at a concrete context and block. -/
theorem update_full_block_witness :
    update ⟨77, 5, 3, []⟩ (List.replicate 16 2 ++ [9]) =
      update { (⟨77, 5, 3, []⟩ : Poly1305) with
        h := (3 + (leNum (List.replicate 16 2) + 2 ^ 128)) % poly1305P * 77 % poly1305P } [9] :=
  update_full_block ⟨77, 5, 3, []⟩ (List.replicate 16 2) [9] rfl (by decide)

/-- C3: if the pending buffer is non-empty with length `L`, `finalize`
folds it into a copy of the accumulator as its little-endian value plus
the short-block marker `2 ^ (8 L)`, with the same add-then-multiply step
as a full block; if the pending buffer is empty no block is folded at
all; and the pending buffer a call to `update` leaves behind always has
between 0 and 15 bytes. -/
theorem finalize_pending_fold (ctx : Poly1305) :
    (ctx.buffer ≠ [] →
      finalize ctx =
        finalize { ctx with
          h := (ctx.h + (leNum ctx.buffer + 2 ^ (8 * ctx.buffer.length))) % poly1305P *
            ctx.r % poly1305P,
          buffer := [] }) ∧
    (ctx.buffer = [] → finalize ctx = serializeTag (ctx.h % poly1305P + ctx.s)) ∧
    (∀ data : List Nat, (update ctx data).buffer.length ≤ 15) := by
  obtain ⟨r, s, h, buf⟩ := ctx
  refine ⟨fun hne => ?_, fun he => ?_, fun data => ?_⟩
  · dsimp only at hne
    simp only [finalize, finalizeS, foldPending, if_neg hne, eq_self_iff_true, if_true]
    unfold polyStep
    rw [Nat.mod_mod_of_dvd _ dvd_rfl, Nat.mod_mod_of_dvd _ dvd_rfl, Nat.mod_mul_mod]
  · dsimp only at he
    simp only [finalize, finalizeS, foldPending, if_pos he]
  · have := update_buffer_lt ⟨r, s, h, buf⟩ data
    omega

/-- Witness for C3 at a concrete context with a one-byte pending buffer
and at a concrete context with an empty one. -/
theorem finalize_pending_fold_witness :
    (finalize ⟨10, 20, 30, [5]⟩ =
      finalize { (⟨10, 20, 30, [5]⟩ : Poly1305) with
        h := (30 + (leNum [5] + 2 ^ (8 * 1))) % poly1305P * 10 % poly1305P,
        buffer := [] }) ∧
      finalize ⟨10, 20, 30, []⟩ = serializeTag (30 % poly1305P + 20) :=
  ⟨(finalize_pending_fold ⟨10, 20, 30, [5]⟩).1 (by decide),
    (finalize_pending_fold ⟨10, 20, 30, []⟩).2.1 rfl⟩

/-- C5: `finalize` and `verify` never mutate the context: the full
context state (in particular accumulator and pending buffer) is
unchanged, repeated calls return the same tag, and later `update` and
`verify` calls behave exactly as on the untouched context — `finalize`
is a pure projection of the state. -/
theorem finalize_verify_pure (ctx : Poly1305) (data tag : List Nat) :
    (finalizeS ctx).2 = ctx ∧ (verifyS ctx tag).2 = ctx ∧
      (finalizeS (verifyS ctx tag).2).1 = (finalizeS ctx).1 ∧
      update (finalizeS ctx).2 data = update ctx data ∧
      verify (verifyS ctx tag).2 tag = verify ctx tag :=
  ⟨rfl, rfl, rfl, rfl, rfl⟩

/-- C4: `finalize` fully reduces the (possibly folded) accumulator to
its canonical representative below `p = 2 ^ 130 - 5`, truncates it to
the low 128 bits, adds `s` modulo `2 ^ 128` with no carry beyond bit
127, and serializes the result little-endian; the tag is exactly 16
bytes (4 words) for every context, hence for every message length. -/
theorem finalize_tag_serialization (ctx : Poly1305) :
    wordsToBytes (finalize ctx) =
      leBytes 16 ((foldPending ctx % poly1305P % 2 ^ 128 + ctx.s) % 2 ^ 128) ∧
      (wordsToBytes (finalize ctx)).length = 16 ∧
      (finalize ctx).length = 4 ∧
      foldPending ctx % poly1305P < poly1305P := by
  refine ⟨?_, ?_, ?_, ?_⟩
  · show wordsToBytes (serializeTag _) = _
    rw [wordsToBytes_serializeTag,
      ← leBytes_mod 16 (foldPending ctx % poly1305P + ctx.s),
      show (256 : Nat) ^ 16 = 2 ^ 128 from by norm_num, ← Nat.mod_add_mod]
  · show (wordsToBytes (serializeTag _)).length = 16
    rw [wordsToBytes_serializeTag, leBytes_length]
  · exact serializeTag_length _
  · exact Nat.mod_lt _ (by norm_num [poly1305P])

/-- C8: the spec-modelled constant-time comparison gives `verify` a cost
(in fixed-size word operations) that is the constant 4, independent of
the candidate tag entirely — of where the first differing byte is, of
how many bytes differ, and of the candidate's length — and `verify`
decides equality with the computed tag. -/
theorem verify_constant_time (ctx : Poly1305) (cand1 cand2 : List Nat) :
    verifySteps ctx cand1 = verifySteps ctx cand2 ∧
      verifySteps ctx cand1 = 4 ∧
      (verify ctx cand1 = true ↔ finalize ctx = cand1) := by
  refine ⟨rfl, ?_, ?_⟩
  · show (finalize ctx).length = 4
    exact serializeTag_length _
  · exact ctEqual_eq_true_iff (finalize ctx) cand1

/-- C7: the poly1305 constructor fails with the invalid-key-size error
if and only if the key is not exactly 8 words (256 bits), and
`poly1305aes` fails with its invalid-size error whenever the cipher key
or the nonce is not exactly 4 words (128 bits), before the cipher is
ever consulted (the result does not depend on the cipher function). -/
theorem key_size_validation (key r aesKey nonce : List Nat)
    (f g : List Nat → List Nat → List Nat) :
    ((∃ ctx, mkPoly1305 key = .ok ctx) ↔ key.length = 8) ∧
      (key.length ≠ 8 → mkPoly1305 key = .error "invalid Poly1305 key size") ∧
      (¬(aesKey.length = 4 ∧ nonce.length = 4) →
        mkPoly1305aesS f r aesKey nonce = .error "invalid Poly1305-AES key/nonce size" ∧
          mkPoly1305aesS f r aesKey nonce = mkPoly1305aesS g r aesKey nonce) := by
  refine ⟨?_, fun h => ?_, fun h => ?_⟩
  · by_cases hl : key.length = 8 <;>
      simp [mkPoly1305, mkPoly1305S, hl, Except.map]
  · simp [mkPoly1305, mkPoly1305S, h, Except.map]
  · have hcond : aesKey.length ≠ 4 ∨ nonce.length ≠ 4 := by tauto
    rw [mkPoly1305aesS, if_pos hcond, mkPoly1305aesS, if_pos hcond]
    exact ⟨rfl, rfl⟩

/-- Witness for C7 at concretely undersized inputs. -/
theorem key_size_validation_witness :
    mkPoly1305 [] = .error "invalid Poly1305 key size" ∧
      mkPoly1305aesS (fun _ _ => []) [] [] [1] =
        .error "invalid Poly1305-AES key/nonce size" :=
  ⟨(key_size_validation [] [] [] [1] (fun _ _ => []) (fun _ _ => [])).2.1 (by decide),
    ((key_size_validation [] [] [] [1] (fun _ _ => []) (fun _ _ => [])).2.2 (by decide)).1⟩

/-- C10 counterexample: constructing through `poly1305aes` does NOT
mutate any caller-supplied array — the caller's `r` array comes back
bit-for-bit unchanged even though the clamp did change the
corresponding words of the (internal, freshly concatenated) 256-bit
key. -/
theorem aes_caller_array_unchanged_cex :
    (mkPoly1305aesS (fun _ _ => List.replicate 4 0) (List.replicate 4 0xffffffff)
        (List.replicate 4 0) (List.replicate 4 0)).map (fun res => res.2.1) =
      .ok (List.replicate 4 0xffffffff) ∧
      clampKey (List.replicate 4 0xffffffff ++ List.replicate 4 0) ≠
        List.replicate 4 0xffffffff ++ List.replicate 4 0 := by
  exact ⟨rfl, by decide⟩

/-- C10 amended: the direct constructor and the one-shot call clamp the
caller-supplied key array in place (the caller sees exactly the clamped
array afterwards, never a copy), while `poly1305aes` returns all three
caller-supplied arrays (`r`, cipher key, nonce) unchanged, because the
clamp is applied to the freshly concatenated internal key. -/
theorem key_clamp_mutation_amended (key data r nonce : List Nat)
    (f : List Nat → List Nat → List Nat) :
    ((mkPoly1305S key).map Prod.snd =
        if key.length = 8 then .ok (clampKey key)
        else .error "invalid Poly1305 key size") ∧
      ((poly1305OneShotS key data).map Prod.snd =
        if key.length = 8 then .ok (clampKey key)
        else .error "invalid Poly1305 key size") ∧
      ((mkPoly1305aesS f r key nonce).map (fun res => res.2) =
        (mkPoly1305aesS f r key nonce).map (fun _ => (r, key, nonce))) := by
  refine ⟨?_, ?_, ?_⟩
  · by_cases hl : key.length = 8 <;> simp [mkPoly1305S, hl, Except.map]
  · by_cases hl : key.length = 8 <;>
      simp [poly1305OneShotS, mkPoly1305S, hl, Except.map]
  · by_cases hc : key.length ≠ 4 ∨ nonce.length ≠ 4
    · simp only [mkPoly1305aesS, if_pos hc]
      rfl
    · simp only [mkPoly1305aesS, if_neg hc]
      cases mkPoly1305S (r ++ f key nonce) <;> rfl

/-! ### Clamp lemmas -/

theorem clamp0_byteswap_lt (k : Nat) (hk : k < 2 ^ 32) :
    byteswapWord (k &&& 0xffffff0f) < 2 ^ 28 := by
  have hw32 : k &&& 0xffffff0f < 2 ^ 32 := Nat.lt_of_le_of_lt Nat.and_le_left hk
  rw [byteswapWord_eq _ hw32]
  have hlow : (k &&& 0xffffff0f) % 2 ^ 8 ≤ 0xf := by
    rw [and_mod_pow]
    calc k % 2 ^ 8 &&& 0xffffff0f % 2 ^ 8 ≤ 0xffffff0f % 2 ^ 8 := Nat.and_le_right
      _ = 0xf := by norm_num
  omega

theorem clamp123_byteswap_lt (k : Nat) (hk : k < 2 ^ 32) :
    byteswapWord (k &&& 0xfcffff0f) < 2 ^ 28 := by
  have hw32 : k &&& 0xfcffff0f < 2 ^ 32 := Nat.lt_of_le_of_lt Nat.and_le_left hk
  rw [byteswapWord_eq _ hw32]
  have hlow : (k &&& 0xfcffff0f) % 2 ^ 8 ≤ 0xf := by
    rw [and_mod_pow]
    calc k % 2 ^ 8 &&& 0xfcffff0f % 2 ^ 8 ≤ 0xfcffff0f % 2 ^ 8 := Nat.and_le_right
      _ = 0xf := by norm_num
  omega

theorem clamp123_byteswap_mod4 (k : Nat) (hk : k < 2 ^ 32) :
    byteswapWord (k &&& 0xfcffff0f) % 4 = 0 := by
  have hw32 : k &&& 0xfcffff0f < 2 ^ 32 := Nat.lt_of_le_of_lt Nat.and_le_left hk
  rw [byteswapWord_eq _ hw32]
  have htop : (k &&& 0xfcffff0f) / 2 ^ 24 % 4 = 0 := by
    rw [and_div_pow, show (0xfcffff0f : Nat) / 2 ^ 24 = 0xfc from by norm_num,
      show (4 : Nat) = 2 ^ 2 from rfl, and_mod_pow,
      show (0xfc : Nat) % 2 ^ 2 = 0 from by norm_num]
    simp
  omega

/-! ### Word extraction -/

theorem extract_word (x3 x2 x1 x0 : Nat) (h3 : x3 < 2 ^ 32) (h2 : x2 < 2 ^ 32)
    (h1 : x1 < 2 ^ 32) (h0 : x0 < 2 ^ 32) :
    (((x3 * 2 ^ 32 + x2) * 2 ^ 32 + x1) * 2 ^ 32 + x0) % 2 ^ 32 = x0 ∧
      (((x3 * 2 ^ 32 + x2) * 2 ^ 32 + x1) * 2 ^ 32 + x0) / 2 ^ 32 % 2 ^ 32 = x1 ∧
      (((x3 * 2 ^ 32 + x2) * 2 ^ 32 + x1) * 2 ^ 32 + x0) / 2 ^ 64 % 2 ^ 32 = x2 ∧
      (((x3 * 2 ^ 32 + x2) * 2 ^ 32 + x1) * 2 ^ 32 + x0) / 2 ^ 96 % 2 ^ 32 = x3 :=
  ⟨by omega, by omega, by omega, by omega⟩

theorem byteswap_four_reverse (x0 x1 x2 x3 : Nat) :
    (byteswap ([x0, x1, x2, x3].take 4)).reverse =
      [byteswapWord x3, byteswapWord x2, byteswapWord x1, byteswapWord x0] := by
  simp only [byteswap, List.take_succ_cons, List.take_zero, List.map_cons, List.map_nil,
    List.reverse_cons, List.reverse_nil, List.nil_append, List.cons_append]

theorem fromBitsBE_four (a b c d : Nat) :
    fromBitsBE [a, b, c, d] = ((a * 2 ^ 32 + b) * 2 ^ 32 + c) * 2 ^ 32 + d := by
  simp only [fromBitsBE, List.foldl_cons, List.foldl_nil, Nat.zero_mul, Nat.zero_add]

theorem bits128ToNum_four (x0 x1 x2 x3 : Nat) :
    bits128ToNum [x0, x1, x2, x3] =
      ((byteswapWord x3 * 2 ^ 32 + byteswapWord x2) * 2 ^ 32 + byteswapWord x1) * 2 ^ 32 +
        byteswapWord x0 := by
  rw [bits128ToNum, byteswap_four_reverse, fromBitsBE_four]

/-! ### Constructor lemmas -/

theorem mkPoly1305_ok_fields (key : List Nat) (ctx : Poly1305)
    (hok : mkPoly1305 key = .ok ctx) :
    key.length = 8 ∧ ctx.r = bits128ToNum ((clampKey key).take 4) ∧
      ctx.s = bits128ToNum ((clampKey key).drop 4) ∧ ctx.h = 0 ∧ ctx.buffer = [] := by
  by_cases hl : key.length = 8
  · simp only [mkPoly1305, mkPoly1305S, hl, ne_eq, not_true_eq_false, if_false,
      ite_false, Except.map] at hok
    obtain rfl := (Except.ok.injEq _ _).mp hok
    exact ⟨hl, rfl, rfl, rfl, rfl⟩
  · simp [mkPoly1305, mkPoly1305S, hl, Except.map] at hok

theorem exists_eight (l : List Nat) (hl : l.length = 8) :
    ∃ a0 a1 a2 a3 a4 a5 a6 a7, l = [a0, a1, a2, a3, a4, a5, a6, a7] := by
  rcases l with _ | ⟨a0, _ | ⟨a1, _ | ⟨a2, _ | ⟨a3, _ | ⟨a4, _ | ⟨a5, _ | ⟨a6, _ |
    ⟨a7, _ | ⟨a8, t⟩⟩⟩⟩⟩⟩⟩⟩⟩
  all_goals first
    | exact ⟨a0, a1, a2, a3, a4, a5, a6, a7, rfl⟩
    | simp at hl

/-- C6: for every accepted 256-bit key, the derived multiplier `r`,
viewed as four little-endian 32-bit words, has the top 4 bits of word 0
zero and the top 4 bits plus the two low-order bits of each of words
1-3 zero, and `r` is never changed by `update`, `finalize` or
`verify`. -/
theorem clamped_r_invariant (key : List Nat) (ctx : Poly1305)
    (hok : mkPoly1305 key = .ok ctx) (hw : ∀ w ∈ key, w < 2 ^ 32) :
    ctx.r % 2 ^ 32 / 2 ^ 28 = 0 ∧
      (∀ i, 1 ≤ i → i ≤ 3 →
        ctx.r / 2 ^ (32 * i) % 2 ^ 32 / 2 ^ 28 = 0 ∧
          ctx.r / 2 ^ (32 * i) % 2 ^ 32 % 4 = 0) ∧
      (∀ data, (update ctx data).r = ctx.r) ∧
      (∀ tag, (finalizeS ctx).2.r = ctx.r ∧ (verifyS ctx tag).2.r = ctx.r) := by
  obtain ⟨hlen, hr, -, -, -⟩ := mkPoly1305_ok_fields key ctx hok
  obtain ⟨k0, k1, k2, k3, k4, k5, k6, k7, rfl⟩ := exists_eight key hlen
  have h0 : k0 < 2 ^ 32 := hw k0 (by simp)
  have h1 : k1 < 2 ^ 32 := hw k1 (by simp)
  have h2 : k2 < 2 ^ 32 := hw k2 (by simp)
  have h3 : k3 < 2 ^ 32 := hw k3 (by simp)
  simp only [clampKey, List.take_succ_cons, List.take_zero] at hr
  rw [bits128ToNum_four] at hr
  have hb0 : byteswapWord (k0 &&& 0xffffff0f) < 2 ^ 32 :=
    byteswapWord_lt _ (Nat.lt_of_le_of_lt Nat.and_le_left h0)
  have hb1 : byteswapWord (k1 &&& 0xfcffff0f) < 2 ^ 32 :=
    byteswapWord_lt _ (Nat.lt_of_le_of_lt Nat.and_le_left h1)
  have hb2 : byteswapWord (k2 &&& 0xfcffff0f) < 2 ^ 32 :=
    byteswapWord_lt _ (Nat.lt_of_le_of_lt Nat.and_le_left h2)
  have hb3 : byteswapWord (k3 &&& 0xfcffff0f) < 2 ^ 32 :=
    byteswapWord_lt _ (Nat.lt_of_le_of_lt Nat.and_le_left h3)
  obtain ⟨e0, e1, e2, e3⟩ := extract_word _ _ _ _ hb3 hb2 hb1 hb0
  refine ⟨?_, ?_, fun data => rfl, fun tag => ⟨rfl, rfl⟩⟩
  · rw [hr, e0]
    exact Nat.div_eq_of_lt (clamp0_byteswap_lt k0 h0)
  · intro i hi1 hi3
    interval_cases i
    · rw [hr, show 32 * 1 = 32 from rfl, e1]
      exact ⟨Nat.div_eq_of_lt (clamp123_byteswap_lt k1 h1), clamp123_byteswap_mod4 k1 h1⟩
    · rw [hr, show (2 : Nat) ^ (32 * 2) = 2 ^ 64 from by norm_num, e2]
      exact ⟨Nat.div_eq_of_lt (clamp123_byteswap_lt k2 h2), clamp123_byteswap_mod4 k2 h2⟩
    · rw [hr, show (2 : Nat) ^ (32 * 3) = 2 ^ 96 from by norm_num, e3]
      exact ⟨Nat.div_eq_of_lt (clamp123_byteswap_lt k3 h3), clamp123_byteswap_mod4 k3 h3⟩

/-- Witness for C6 at the all-ones key. -/
theorem clamped_r_invariant_witness :
    mkPoly1305 (List.replicate 8 0xffffffff) =
      .ok ⟨0x0ffffffc0ffffffc0ffffffc0fffffff, 0xffffffffffffffffffffffffffffffff, 0, []⟩ ∧
      (0x0ffffffc0ffffffc0ffffffc0fffffff : Nat) % 2 ^ 32 / 2 ^ 28 = 0 :=
  ⟨rfl,
    (clamped_r_invariant (List.replicate 8 0xffffffff)
      ⟨0x0ffffffc0ffffffc0ffffffc0fffffff, 0xffffffffffffffffffffffffffffffff, 0, []⟩
      rfl (by decide)).1⟩

/-- C9: for a freshly constructed context (the zero-length message, or
after only empty updates), `finalize` returns exactly the 128-bit value
`s` serialized as the 16-byte little-endian tag, independent of `r`
(the tag is a function of `s` alone). -/
theorem zero_message_tag (key : List Nat) (ctx : Poly1305)
    (hok : mkPoly1305 key = .ok ctx) (hw : ∀ w ∈ key, w < 2 ^ 32) :
    finalize ctx = serializeTag ctx.s ∧
      wordsToBytes (finalize ctx) = leBytes 16 ctx.s ∧
      ctx.s < 2 ^ 128 ∧
      update ctx [] = ctx := by
  obtain ⟨hlen, -, hs, hh, hb⟩ := mkPoly1305_ok_fields key ctx hok
  have htag : finalize ctx = serializeTag ctx.s := by
    simp [finalize, finalizeS, foldPending, hb, hh]
  refine ⟨htag, ?_, ?_, ?_⟩
  · rw [htag, wordsToBytes_serializeTag]
  · obtain ⟨k0, k1, k2, k3, k4, k5, k6, k7, rfl⟩ := exists_eight key hlen
    have h4 : k4 < 2 ^ 32 := hw k4 (by simp)
    have h5 : k5 < 2 ^ 32 := hw k5 (by simp)
    have h6 : k6 < 2 ^ 32 := hw k6 (by simp)
    have h7 : k7 < 2 ^ 32 := hw k7 (by simp)
    simp only [clampKey, List.drop_succ_cons, List.drop_zero] at hs
    rw [bits128ToNum_four] at hs
    have hb4 := byteswapWord_lt k4 h4
    have hb5 := byteswapWord_lt k5 h5
    have hb6 := byteswapWord_lt k6 h6
    have hb7 := byteswapWord_lt k7 h7
    rw [hs]
    omega
  · exact update_nil ctx (by rw [hb]; simp)

/-- Witness for C9 at the all-zero key. -/
theorem zero_message_tag_witness :
    mkPoly1305 (List.replicate 8 0) = .ok ⟨0, 0, 0, []⟩ ∧
      finalize ⟨0, 0, 0, []⟩ = serializeTag 0 :=
  ⟨rfl, (zero_message_tag (List.replicate 8 0) ⟨0, 0, 0, []⟩ rfl (by decide)).1⟩

end SjclPoly1305
